import Mathlib

/-!
Verification of the manga-page layout engine.

Shallow embedding of the repository's layout core:
  - lib/layout/score.py   (layout similarity / bipartite matching)
  - lib/layout/layout.py  (corpus records, canonical rescale)
  - lib/page/layout_generator.py (Monte-Carlo BSP sampler)
  - lib/page/layout_optimizer.py (panel polygon refinement, gutters)

Machine floats are modelled by exact rationals; Python `int()` truncation
is modelled by `py_int`.  External collaborators (scipy's assignment
solver and minimizer, `math.sin`/`math.cos`, the process RNG) are
modelled as oracle parameters; every theorem quantifies over them.
-/

namespace MangaSpec

/-- Python `int()` applied to a rational: truncation toward zero
(floor for nonnegative arguments, ceiling for negative ones). -/
def py_int (q : ℚ) : ℤ := if 0 ≤ q then ⌊q⌋ else ⌈q⌉

theorem py_int_of_nonneg {q : ℚ} (h : 0 ≤ q) : py_int q = ⌊q⌋ := if_pos h

/-! ## lib/layout/score.py -/

/-- Python `LayoutElement`: a typed element with `bbox = [x1, y1, x2, y2]`. -/
structure LayoutElement where
  element_type : String
  bbox : List ℤ
deriving DecidableEq, Repr

/-- Python `LayoutElement.get_area`: `(x2 - x1) * (y2 - y1)` as a float. -/
def LayoutElement.get_area (e : LayoutElement) : ℚ :=
  ((e.bbox.getD 2 0 : ℚ) - (e.bbox.getD 0 0 : ℚ)) *
    ((e.bbox.getD 3 0 : ℚ) - (e.bbox.getD 1 0 : ℚ))

/-- Python `Layout`: canvas width/height plus elements. -/
structure Layout where
  width : ℤ
  height : ℤ
  elements : List LayoutElement
deriving DecidableEq, Repr

/-- Python `Layout.scale`: multiplies width, height and every bbox coordinate by
`scale_factor`, truncating each with `int()`.  Python mutates in place;
here the post-state is returned as a value. -/
def Layout.scale (l : Layout) (scale_factor : ℚ) : Layout :=
  { width := py_int ((l.width : ℚ) * scale_factor)
    height := py_int ((l.height : ℚ) * scale_factor)
    elements := l.elements.map fun e =>
      { e with bbox := e.bbox.map fun (b : ℤ) => py_int ((b : ℚ) * scale_factor) } }

/-- Area of a box `[x1, y1, x2, y2]` as used by `torchvision.ops.box_iou`. -/
def box_area (b : List ℤ) : ℚ :=
  ((b.getD 2 0 : ℚ) - (b.getD 0 0 : ℚ)) * ((b.getD 3 0 : ℚ) - (b.getD 1 0 : ℚ))

/-- Python `torchvision.ops.box_iou` on a single pair: intersection over union,
with the intersection width/height clamped at 0.  Division by a zero
union (a NaN in torch) is modelled by rational division, which yields 0. -/
def box_iou (b1 b2 : List ℤ) : ℚ :=
  let interW := max 0 (min ((b1.getD 2 0 : ℚ)) ((b2.getD 2 0 : ℚ)) -
    max ((b1.getD 0 0 : ℚ)) ((b2.getD 0 0 : ℚ)))
  let interH := max 0 (min ((b1.getD 3 0 : ℚ)) ((b2.getD 3 0 : ℚ)) -
    max ((b1.getD 1 0 : ℚ)) ((b2.getD 1 0 : ℚ)))
  let inter := interW * interH
  inter / (box_area b1 + box_area b2 - inter)

/-- Entry `(i, j)` of `calculate_iou_matrix`. -/
def calculate_iou_matrix (elements1 elements2 : List LayoutElement) (i j : ℕ) : ℚ :=
  match elements1[i]?, elements2[j]? with
  | some e1, some e2 => box_iou e1.bbox e2.bbox
  | _, _ => 0

/-- The `"ratio"` area-similarity formula: `min(a1,a2) / max(a1,a2)`. -/
def ratio_method (a1 a2 : ℚ) : ℚ := min a1 a2 / max a1 a2

/-- Entry `(i, j)` of `calculate_area_similarity_matrix`.  Non-positive
areas yield 0 before the method formula is applied.  The `"log"` and
`"hybrid"` methods go through transcendental floats (`math.exp`,
`math.log`), so the per-pair formula is an oracle parameter `method`;
`ratio_method` instantiates it for `"ratio"`. -/
def calculate_area_similarity_matrix (method : ℚ → ℚ → ℚ)
    (elements1 elements2 : List LayoutElement) (i j : ℕ) : ℚ :=
  match elements1[i]?, elements2[j]? with
  | some e1, some e2 =>
    let area1 := e1.get_area
    let area2 := e2.get_area
    if area1 ≤ 0 ∨ area2 ≤ 0 then 0 else method area1 area2
  | _, _ => 0

/-- Entry `(i, j)` of `calculate_weight_matrix_with_area`: 0 unless the
element types agree; otherwise a weighted blend of IoU and area
similarity (plain IoU when the area matrix is absent or the weight is
not positive).  `useAreaMatrix` models `area_matrix is not None`. -/
def calculate_weight_matrix_with_area (elements1 elements2 : List LayoutElement)
    (iou area : ℕ → ℕ → ℚ) (useAreaMatrix : Bool) (area_weight : ℚ) (i j : ℕ) : ℚ :=
  match elements1[i]?, elements2[j]? with
  | some e1, some e2 =>
    if e1.element_type = e2.element_type then
      if useAreaMatrix ∧ 0 < area_weight then
        (1 - area_weight) * iou i j + area_weight * area i j
      else iou i j
    else 0
  | _, _ => 0

/-- The pruning loop of `solve_bipartite_matching`: keep only assignment
pairs of strictly positive weight, summing their weights. -/
def prune_matching (W : ℕ → ℕ → ℚ) : List (ℕ × ℕ) → ℚ × List (ℕ × ℕ)
  | [] => (0, [])
  | p :: rest =>
    let r := prune_matching W rest
    if 0 < W p.1 p.2 then (W p.1 p.2 + r.1, p :: r.2) else r

/-- Python `solve_bipartite_matching`: scipy's `linear_sum_assignment` is an
external exact solver, modelled by the oracle assignment list `asgn`
(its output `zip(row_indices, col_indices)`); the function scores and
prunes it.  An empty matrix returns `(0, [])` immediately. -/
def solve_bipartite_matching (m n : ℕ) (W : ℕ → ℕ → ℚ)
    (asgn : List (ℕ × ℕ)) : ℚ × List (ℕ × ℕ) :=
  if m = 0 ∨ n = 0 then (0, []) else prune_matching W asgn

/-- Observable outcome of one `calc_similarity` call: the returned score,
the matching computed by the bipartite solve (empty on the early-return
paths, which happen before any matrix exists), whether the IoU / area /
weight matrices were built, and the post-call state of `layout2` (which
the Python code scales in place). -/
structure SimRun where
  score : ℚ
  matching : List (ℕ × ℕ)
  builtMatrices : Bool
  layout2After : Layout
deriving DecidableEq, Repr

/-- Python `calc_similarity(layout1, layout2, aspect_ratio_threshold, use_area,
area_weight, area_method)`.  `method` is the per-pair area-similarity
formula selected by `area_method`; `solver` is scipy's assignment
oracle, given the weight matrix and its dimensions. -/
def calc_similarity (layout1 layout2 : Layout) (aspect_ratio_threshold : ℚ)
    (use_area : Bool) (area_weight : ℚ) (method : ℚ → ℚ → ℚ)
    (solver : (ℕ → ℕ → ℚ) → ℕ → ℕ → List (ℕ × ℕ)) : SimRun :=
  if |(layout1.width : ℚ) / (layout1.height : ℚ) -
      (layout2.width : ℚ) / (layout2.height : ℚ)| > aspect_ratio_threshold then
    ⟨0, [], false, layout2⟩
  else
    let scale_factor : ℚ := (layout1.width : ℚ) / (layout2.width : ℚ)
    let layout2s := layout2.scale scale_factor
    if layout1.elements.length = 0 ∨ layout2s.elements.length = 0 then
      ⟨0, [], false, layout2s⟩
    else
      let m := layout1.elements.length
      let n := layout2s.elements.length
      let iou := calculate_iou_matrix layout1.elements layout2s.elements
      let area := calculate_area_similarity_matrix method layout1.elements layout2s.elements
      let W := calculate_weight_matrix_with_area layout1.elements layout2s.elements
        iou area use_area (if use_area then area_weight else 0)
      let r := solve_bipartite_matching m n W (solver W m n)
      ⟨r.1, r.2, true, layout2s⟩

/-! ## Theorems about lib/layout/score.py -/

theorem prune_matching_mem {W : ℕ → ℕ → ℚ} :
    ∀ {asgn : List (ℕ × ℕ)} {p : ℕ × ℕ},
      p ∈ (prune_matching W asgn).2 → 0 < W p.1 p.2 := by
  intro asgn
  induction asgn with
  | nil => intro p hp; simp [prune_matching] at hp
  | cons q rest ih =>
    intro p hp
    rw [prune_matching] at hp
    by_cases hq : 0 < W q.1 q.2
    · rw [if_pos hq] at hp
      rcases List.mem_cons.mp hp with h | h
      · subst h; exact hq
      · exact ih h
    · rw [if_neg hq] at hp
      exact ih hp

theorem solve_bipartite_matching_mem {m n : ℕ} {W : ℕ → ℕ → ℚ}
    {asgn : List (ℕ × ℕ)} {p : ℕ × ℕ}
    (hp : p ∈ (solve_bipartite_matching m n W asgn).2) : 0 < W p.1 p.2 := by
  rw [solve_bipartite_matching] at hp
  by_cases h : m = 0 ∨ n = 0
  · rw [if_pos h] at hp; simp at hp
  · rw [if_neg h] at hp; exact prune_matching_mem hp

theorem weight_pos_types_eq {elements1 elements2 : List LayoutElement}
    {iou area : ℕ → ℕ → ℚ} {useAreaMatrix : Bool} {area_weight : ℚ} {i j : ℕ}
    (h : 0 < calculate_weight_matrix_with_area elements1 elements2 iou area
      useAreaMatrix area_weight i j) :
    ∃ f1 f2, elements1[i]? = some f1 ∧ elements2[j]? = some f2 ∧
      f1.element_type = f2.element_type := by
  rw [calculate_weight_matrix_with_area] at h
  cases h1 : elements1[i]? with
  | none => rw [h1] at h; simp at h
  | some f1 =>
    cases h2 : elements2[j]? with
    | none => rw [h1, h2] at h; simp at h
    | some f2 =>
      rw [h1, h2] at h
      by_cases hty : f1.element_type = f2.element_type
      · exact ⟨f1, f2, rfl, rfl, hty⟩
      · simp [hty] at h

/-- C6: if query element `i` and reference element `j` have different
`element_type` values then the weight-matrix entry `(i, j)` is exactly 0,
and no pair returned by the bipartite matching (for any solver output)
connects elements of different types. -/
theorem C6_type_mask (elements1 elements2 : List LayoutElement)
    (iou area : ℕ → ℕ → ℚ) (useAreaMatrix : Bool) (area_weight : ℚ)
    (i j : ℕ) (e1 e2 : LayoutElement)
    (h1 : elements1[i]? = some e1) (h2 : elements2[j]? = some e2)
    (hne : e1.element_type ≠ e2.element_type) :
    calculate_weight_matrix_with_area elements1 elements2 iou area
      useAreaMatrix area_weight i j = 0 ∧
    ∀ (m n : ℕ) (asgn : List (ℕ × ℕ)) (p : ℕ × ℕ),
      p ∈ (solve_bipartite_matching m n
        (calculate_weight_matrix_with_area elements1 elements2 iou area
          useAreaMatrix area_weight) asgn).2 →
      ∃ f1 f2, elements1[p.1]? = some f1 ∧ elements2[p.2]? = some f2 ∧
        f1.element_type = f2.element_type := by
  constructor
  · rw [calculate_weight_matrix_with_area, h1, h2]
    simp [hne]
  · intro m n asgn p hp
    exact weight_pos_types_eq (solve_bipartite_matching_mem hp)

theorem C6_type_mask_witness :
    ([LayoutElement.mk "face" [0, 0, 2, 2]].get? 0 = some ⟨"face", [0, 0, 2, 2]⟩) ∧
    ([LayoutElement.mk "body" [0, 0, 2, 2]].get? 0 = some ⟨"body", [0, 0, 2, 2]⟩) ∧
    (("face" : String) ≠ "body") ∧
    (calculate_weight_matrix_with_area [⟨"face", [0, 0, 2, 2]⟩] [⟨"body", [0, 0, 2, 2]⟩]
      (fun _ _ => 1) (fun _ _ => 1) true (1/10) 0 0 = 0 ∧
    ∀ (m n : ℕ) (asgn : List (ℕ × ℕ)) (p : ℕ × ℕ),
      p ∈ (solve_bipartite_matching m n
        (calculate_weight_matrix_with_area [⟨"face", [0, 0, 2, 2]⟩] [⟨"body", [0, 0, 2, 2]⟩]
          (fun _ _ => 1) (fun _ _ => 1) true (1/10)) asgn).2 →
      ∃ f1 f2, [LayoutElement.mk "face" [0, 0, 2, 2]][p.1]? = some f1 ∧
        [LayoutElement.mk "body" [0, 0, 2, 2]][p.2]? = some f2 ∧
        f1.element_type = f2.element_type) :=
  ⟨rfl, rfl, by decide,
    C6_type_mask [⟨"face", [0, 0, 2, 2]⟩] [⟨"body", [0, 0, 2, 2]⟩]
      (fun _ _ => 1) (fun _ _ => 1) true (1/10) 0 0 ⟨"face", [0, 0, 2, 2]⟩
      ⟨"body", [0, 0, 2, 2]⟩ rfl rfl (by decide)⟩

/-- C2: whenever the aspect ratios of the two layouts differ by more than
`aspect_ratio_threshold`, `calc_similarity` returns score 0 with an empty
matching, builds no IoU/area/weight matrix, and leaves `layout2`
untouched — for every element content, area method and solver. -/
theorem C2_aspect_ratio_gate (layout1 layout2 : Layout) (thr : ℚ)
    (use_area : Bool) (area_weight : ℚ) (method : ℚ → ℚ → ℚ)
    (solver : (ℕ → ℕ → ℚ) → ℕ → ℕ → List (ℕ × ℕ))
    (h : |(layout1.width : ℚ) / (layout1.height : ℚ) -
      (layout2.width : ℚ) / (layout2.height : ℚ)| > thr) :
    calc_similarity layout1 layout2 thr use_area area_weight method solver =
      ⟨0, [], false, layout2⟩ := by
  rw [calc_similarity, if_pos h]

theorem C2_aspect_ratio_gate_witness :
    (|((Layout.mk 1 1 [] : Layout).width : ℚ) / ((Layout.mk 1 1 [] : Layout).height : ℚ) -
      ((Layout.mk 3 1 [] : Layout).width : ℚ) / ((Layout.mk 3 1 [] : Layout).height : ℚ)| >
        (1/5 : ℚ)) ∧
    calc_similarity ⟨1, 1, []⟩ ⟨3, 1, []⟩ (1/5) true (1/10) ratio_method
      (fun _ _ _ => []) = ⟨0, [], false, ⟨3, 1, []⟩⟩ :=
  ⟨by norm_num, C2_aspect_ratio_gate ⟨1, 1, []⟩ ⟨3, 1, []⟩ (1/5) true (1/10)
    ratio_method (fun _ _ _ => []) (by norm_num)⟩

/-- C1 (code bug): `calc_similarity` rescales the caller's reference
layout in place instead of an independent copy.  At this input the
post-call state of `layout2` differs from its pre-call state: every
dimension and bbox coordinate has been doubled. -/
theorem C1_reference_mutated :
    (calc_similarity ⟨200, 200, [⟨"face", [0, 0, 100, 100]⟩]⟩
      ⟨100, 100, [⟨"face", [0, 0, 50, 50]⟩]⟩ (1/5) true (1/10) ratio_method
      (fun _ _ _ => [])).layout2After ≠
    ⟨100, 100, [⟨"face", [0, 0, 50, 50]⟩]⟩ := by
  norm_num [calc_similarity, Layout.scale, py_int]

/-- C7 counterexample: scaling the 7×7 layout by `f = 1/10` and then by
`1/f = 10` collapses the width to 0, which is 7 pixels away from the
original — far outside the claimed ±1 tolerance. -/
theorem C7_round_trip_cex :
    ¬ |(((Layout.mk 7 7 []).scale (1/10)).scale (1/(1/10))).width -
        (Layout.mk 7 7 []).width| ≤ 1 := by
  norm_num [Layout.scale, py_int]

theorem py_int_round_trip {z : ℤ} {f : ℚ} (hz : 0 ≤ z) (hf : 1 ≤ f) :
    |py_int ((py_int ((z : ℚ) * f) : ℚ) * f⁻¹) - z| ≤ 1 := by
  have hf0 : (0 : ℚ) < f := lt_of_lt_of_le one_pos hf
  have hz0 : (0 : ℚ) ≤ (z : ℚ) := by exact_mod_cast hz
  have hzf : (0 : ℚ) ≤ (z : ℚ) * f := mul_nonneg hz0 hf0.le
  rw [py_int_of_nonneg hzf]
  have hw0 : (0 : ℚ) ≤ (⌊(z : ℚ) * f⌋ : ℚ) := by
    exact_mod_cast Int.le_floor.mpr (by simpa using hzf)
  have hwi : (0 : ℚ) ≤ (⌊(z : ℚ) * f⌋ : ℚ) * f⁻¹ :=
    mul_nonneg hw0 (inv_nonneg.mpr hf0.le)
  rw [py_int_of_nonneg hwi]
  have hub : (⌊(z : ℚ) * f⌋ : ℚ) * f⁻¹ ≤ (z : ℚ) := by
    have h1 : (⌊(z : ℚ) * f⌋ : ℚ) ≤ (z : ℚ) * f := Int.floor_le _
    have h2 : (⌊(z : ℚ) * f⌋ : ℚ) * f⁻¹ ≤ ((z : ℚ) * f) * f⁻¹ :=
      mul_le_mul_of_nonneg_right h1 (inv_nonneg.mpr hf0.le)
    calc (⌊(z : ℚ) * f⌋ : ℚ) * f⁻¹ ≤ ((z : ℚ) * f) * f⁻¹ := h2
      _ = (z : ℚ) := by field_simp
  have hupper : ⌊(⌊(z : ℚ) * f⌋ : ℚ) * f⁻¹⌋ ≤ z := by
    have := Int.floor_le_floor hub
    simpa using this
  have hlb : (z : ℚ) - 1 < (⌊(z : ℚ) * f⌋ : ℚ) * f⁻¹ := by
    have h1 : (z : ℚ) * f - 1 < (⌊(z : ℚ) * f⌋ : ℚ) := Int.sub_one_lt_floor _
    have h2 : ((z : ℚ) * f - 1) * f⁻¹ < (⌊(z : ℚ) * f⌋ : ℚ) * f⁻¹ :=
      mul_lt_mul_of_pos_right h1 (inv_pos.mpr hf0)
    have h3 : ((z : ℚ) * f - 1) * f⁻¹ = (z : ℚ) - f⁻¹ := by field_simp
    have h4 : (z : ℚ) - 1 ≤ (z : ℚ) - f⁻¹ := by
      have : f⁻¹ ≤ 1 := inv_le_one_of_one_le₀ hf
      linarith
    calc (z : ℚ) - 1 ≤ (z : ℚ) - f⁻¹ := h4
      _ = ((z : ℚ) * f - 1) * f⁻¹ := h3.symm
      _ < _ := h2
  have hlower : z - 1 ≤ ⌊(⌊(z : ℚ) * f⌋ : ℚ) * f⁻¹⌋ := by
    apply Int.le_floor.mpr
    push_cast
    linarith
  rw [abs_le]
  omega

/-- C7 (amended): for every layout with nonnegative dimensions and bbox
coordinates and every factor `f ≥ 1`, scaling by `f` and then by `1/f`
returns every dimension and every bbox coordinate to within ±1 of its
original value.  (For `f < 1` the claim fails: see the counterexample.) -/
theorem C7_round_trip_amended (l : Layout) (f : ℚ) (hf : 1 ≤ f)
    (hw : 0 ≤ l.width) (hh : 0 ≤ l.height)
    (hb : ∀ e ∈ l.elements, ∀ c ∈ e.bbox, 0 ≤ c) :
    |((l.scale f).scale f⁻¹).width - l.width| ≤ 1 ∧
    |((l.scale f).scale f⁻¹).height - l.height| ≤ 1 ∧
    ((l.scale f).scale f⁻¹).elements.length = l.elements.length ∧
    ∀ (i : ℕ) (e e2 : LayoutElement), l.elements[i]? = some e →
      ((l.scale f).scale f⁻¹).elements[i]? = some e2 →
      e2.element_type = e.element_type ∧ e2.bbox.length = e.bbox.length ∧
      ∀ (j : ℕ) (c c2 : ℤ), e.bbox[j]? = some c → e2.bbox[j]? = some c2 →
        |c2 - c| ≤ 1 := by
  refine ⟨py_int_round_trip hw hf, py_int_round_trip hh hf, by simp [Layout.scale], ?_⟩
  intro i e e2 he he2
  have hmem : e ∈ l.elements := List.getElem?_mem he
  simp only [Layout.scale, List.getElem?_map, he, Option.map_some'] at he2
  obtain rfl : _ = e2 := Option.some.inj he2
  refine ⟨rfl, by simp, ?_⟩
  intro j c c2 hc hc2
  simp only [List.getElem?_map, hc, Option.map_some'] at hc2
  obtain rfl : _ = c2 := Option.some.inj hc2
  exact py_int_round_trip (hb e hmem c (List.getElem?_mem hc)) hf

theorem C7_round_trip_amended_witness :
    ((1 : ℚ) ≤ 3) ∧ (0 ≤ (Layout.mk 10 10 [⟨"face", [0, 0, 5, 5]⟩]).width) ∧
    (0 ≤ (Layout.mk 10 10 [⟨"face", [0, 0, 5, 5]⟩]).height) ∧
    (∀ e ∈ (Layout.mk 10 10 [⟨"face", [0, 0, 5, 5]⟩]).elements,
      ∀ c ∈ e.bbox, (0 : ℤ) ≤ c) ∧
    (|(((Layout.mk 10 10 [⟨"face", [0, 0, 5, 5]⟩]).scale 3).scale
        (3 : ℚ)⁻¹).width - (Layout.mk 10 10 [⟨"face", [0, 0, 5, 5]⟩]).width| ≤ 1 ∧
     |(((Layout.mk 10 10 [⟨"face", [0, 0, 5, 5]⟩]).scale 3).scale
        (3 : ℚ)⁻¹).height - (Layout.mk 10 10 [⟨"face", [0, 0, 5, 5]⟩]).height| ≤ 1 ∧
     (((Layout.mk 10 10 [⟨"face", [0, 0, 5, 5]⟩]).scale 3).scale
        (3 : ℚ)⁻¹).elements.length =
       (Layout.mk 10 10 [⟨"face", [0, 0, 5, 5]⟩]).elements.length ∧
     ∀ (i : ℕ) (e e2 : LayoutElement),
      (Layout.mk 10 10 [⟨"face", [0, 0, 5, 5]⟩]).elements[i]? = some e →
      (((Layout.mk 10 10 [⟨"face", [0, 0, 5, 5]⟩]).scale 3).scale
        (3 : ℚ)⁻¹).elements[i]? = some e2 →
      e2.element_type = e.element_type ∧ e2.bbox.length = e.bbox.length ∧
      ∀ (j : ℕ) (c c2 : ℤ), e.bbox[j]? = some c → e2.bbox[j]? = some c2 →
        |c2 - c| ≤ 1) :=
  ⟨by norm_num, by decide, by decide, by decide,
    C7_round_trip_amended ⟨10, 10, [⟨"face", [0, 0, 5, 5]⟩]⟩ 3 (by norm_num)
      (by decide) (by decide) (by decide)⟩

/-! ## lib/layout/layout.py -/

/-- An element of a corpus `MangaLayout` record: `Speaker` carries a
`text_length`, `NonSpeaker` does not; both carry a bbox.  The subclass
tag is modelled by the optional `text_length`. -/
structure MLElement where
  bbox : List ℤ
  text_length : Option ℤ
deriving DecidableEq, Repr

/-- A corpus layout record. -/
structure MangaLayout where
  image_path : String
  width : ℤ
  height : ℤ
  elements : List MLElement
  unrelated_text_length : ℤ
deriving DecidableEq, Repr

/-- The per-bbox rescale loop of `MangaLayout.adjust`: x-coordinates by
`sx`, y-coordinates by `sy`, each truncated with `int()`. -/
def scale_bbox (b : List ℤ) (sx sy : ℚ) : List ℤ :=
  [py_int ((b.getD 0 0 : ℚ) * sx), py_int ((b.getD 1 0 : ℚ) * sy),
   py_int ((b.getD 2 0 : ℚ) * sx), py_int ((b.getD 3 0 : ℚ) * sy)]

/-- Python `MangaLayout.adjust(base_width, base_height)`: computes letterbox
dimensions `(new_width, new_height)` reaching the target aspect, then
the two per-stage scale factors, multiplies them into
`total_width_scale` / `total_height_scale`, and applies those once to
every bbox, setting the canvas to the base size. -/
def MangaLayout.adjust (l : MangaLayout) (base_width base_height : ℤ) : MangaLayout :=
  let original_width : ℚ := (l.width : ℚ)
  let original_height : ℚ := (l.height : ℚ)
  let target_aspect : ℚ := (base_width : ℚ) / (base_height : ℚ)
  let original_aspect : ℚ := original_width / original_height
  let nwh : ℚ × ℚ :=
    if original_aspect > target_aspect then
      (original_width, (py_int (original_width / target_aspect) : ℚ))
    else
      ((py_int (original_height * target_aspect) : ℚ), original_height)
  let width_scale_1 := nwh.1 / original_width
  let height_scale_1 := nwh.2 / original_height
  let final_width_scale := (base_width : ℚ) / nwh.1
  let final_height_scale := (base_height : ℚ) / nwh.2
  let total_width_scale := width_scale_1 * final_width_scale
  let total_height_scale := height_scale_1 * final_height_scale
  { l with
    width := base_width
    height := base_height
    elements := l.elements.map fun e =>
      { e with bbox := scale_bbox e.bbox total_width_scale total_height_scale } }

/-- Modelled from the spec: the "single direct per-axis stretch by
factors `base_width/original_width` and `base_height/original_height`"
that the spec asserts the two-stage rescale is not equal to. -/
def MangaLayout.direct_stretch (l : MangaLayout) (base_width base_height : ℤ) : MangaLayout :=
  { l with
    width := base_width
    height := base_height
    elements := l.elements.map fun e =>
      { e with bbox := scale_bbox e.bbox ((base_width : ℚ) / (l.width : ℚ)) ((base_height : ℚ) / (l.height : ℚ)) } }

/-! ## Theorems about lib/layout/layout.py -/

/-- C8 counterexample: at a 100×200 record rescaled to the canonical
100×100 (a genuinely mismatched aspect, where letterboxing would
matter), `adjust` produces exactly the single direct per-axis stretch —
refuting the claim that the two transformations are unequal. -/
theorem C8_two_stage_cex :
    (MangaLayout.mk "" 100 200 [⟨[10, 20, 30, 40], none⟩] 0).adjust 100 100 =
    (MangaLayout.mk "" 100 200 [⟨[10, 20, 30, 40], none⟩] 0).direct_stretch 100 100 := by
  norm_num [MangaLayout.adjust, MangaLayout.direct_stretch, scale_bbox, py_int]

/-- C8 (amended): for every record with positive dimensions and every
positive canonical size, the two-stage letterbox-then-scale-to-fit
collapses algebraically — the intermediate scale factors cancel — so
`adjust` IS the single direct per-axis stretch by `base_width/width`
and `base_height/height`. -/
theorem C8_two_stage_amended (l : MangaLayout) (bw bh : ℤ)
    (hw : 0 < l.width) (hh : 0 < l.height) (hbw : 0 < bw) (hbh : 0 < bh) :
    l.adjust bw bh = l.direct_stretch bw bh := by
  have hwq : (0 : ℚ) < (l.width : ℚ) := by exact_mod_cast hw
  have hhq : (0 : ℚ) < (l.height : ℚ) := by exact_mod_cast hh
  have hbwq : (0 : ℚ) < (bw : ℚ) := by exact_mod_cast hbw
  have hbhq : (0 : ℚ) < (bh : ℚ) := by exact_mod_cast hbh
  have hwq1 : (1 : ℚ) ≤ (l.width : ℚ) := by exact_mod_cast hw
  have hhq1 : (1 : ℚ) ≤ (l.height : ℚ) := by exact_mod_cast hh
  rw [MangaLayout.adjust, MangaLayout.direct_stretch]
  simp only [MangaLayout.mk.injEq, true_and, and_true]
  split
  case isTrue hgt =>
    dsimp only
    -- wide original: new_width = original_width, new_height = ⌊w / target⌋ ≥ 1
    have htar : (0 : ℚ) < (bw : ℚ) / (bh : ℚ) := div_pos hbwq hbhq
    have hgt2 : (l.height : ℚ) < (l.width : ℚ) / ((bw : ℚ) / (bh : ℚ)) := by
      rw [lt_div_iff₀ htar]
      have h1 : (l.height : ℚ) * ((bw : ℚ) / (bh : ℚ)) <
          (l.height : ℚ) * ((l.width : ℚ) / (l.height : ℚ)) :=
        mul_lt_mul_of_pos_left hgt hhq
      have h2 : (l.height : ℚ) * ((l.width : ℚ) / (l.height : ℚ)) = (l.width : ℚ) := by
        field_simp
      linarith
    have hnh1 : (1 : ℚ) ≤ (l.width : ℚ) / ((bw : ℚ) / (bh : ℚ)) :=
      le_trans hhq1 hgt2.le
    have hfl : (1 : ℤ) ≤ py_int ((l.width : ℚ) / ((bw : ℚ) / (bh : ℚ))) := by
      rw [py_int_of_nonneg (le_trans zero_le_one hnh1)]
      exact Int.le_floor.mpr (by exact_mod_cast hnh1)
    have hnhq : ((py_int ((l.width : ℚ) / ((bw : ℚ) / (bh : ℚ))) : ℤ) : ℚ) ≠ 0 := by
      have : (0 : ℚ) < ((py_int ((l.width : ℚ) / ((bw : ℚ) / (bh : ℚ))) : ℤ) : ℚ) := by
        exact_mod_cast lt_of_lt_of_le zero_lt_one hfl
      exact this.ne'
    have hsx : (l.width : ℚ) / (l.width : ℚ) * ((bw : ℚ) / (l.width : ℚ)) =
        (bw : ℚ) / (l.width : ℚ) := by
      rw [div_self hwq.ne', one_mul]
    have hsy : ((py_int ((l.width : ℚ) / ((bw : ℚ) / (bh : ℚ))) : ℤ) : ℚ) / (l.height : ℚ) *
        ((bh : ℚ) / ((py_int ((l.width : ℚ) / ((bw : ℚ) / (bh : ℚ))) : ℤ) : ℚ)) =
        (bh : ℚ) / (l.height : ℚ) := by
      generalize hX : ((py_int ((l.width : ℚ) / ((bw : ℚ) / (bh : ℚ))) : ℤ) : ℚ) = X at hnhq ⊢
      field_simp
      ring
    simp only [hsx, hsy]
  case isFalse hle =>
    dsimp only
    -- tall original: new_height = original_height, new_width = ⌊h * target⌋ ≥ 1
    have htar : (0 : ℚ) < (bw : ℚ) / (bh : ℚ) := div_pos hbwq hbhq
    have hge2 : (l.width : ℚ) ≤ (l.height : ℚ) * ((bw : ℚ) / (bh : ℚ)) := by
      have hle2 : (l.width : ℚ) / (l.height : ℚ) ≤ (bw : ℚ) / (bh : ℚ) := not_lt.mp hle
      calc (l.width : ℚ) = (l.width : ℚ) / (l.height : ℚ) * (l.height : ℚ) := by field_simp
        _ ≤ (bw : ℚ) / (bh : ℚ) * (l.height : ℚ) :=
            mul_le_mul_of_nonneg_right hle2 hhq.le
        _ = (l.height : ℚ) * ((bw : ℚ) / (bh : ℚ)) := mul_comm _ _
    have hnw1 : (1 : ℚ) ≤ (l.height : ℚ) * ((bw : ℚ) / (bh : ℚ)) := le_trans hwq1 hge2
    have hfl : (1 : ℤ) ≤ py_int ((l.height : ℚ) * ((bw : ℚ) / (bh : ℚ))) := by
      rw [py_int_of_nonneg (le_trans zero_le_one hnw1)]
      exact Int.le_floor.mpr (by exact_mod_cast hnw1)
    have hnwq : ((py_int ((l.height : ℚ) * ((bw : ℚ) / (bh : ℚ))) : ℤ) : ℚ) ≠ 0 := by
      have : (0 : ℚ) < ((py_int ((l.height : ℚ) * ((bw : ℚ) / (bh : ℚ))) : ℤ) : ℚ) := by
        exact_mod_cast lt_of_lt_of_le zero_lt_one hfl
      exact this.ne'
    have hsx : ((py_int ((l.height : ℚ) * ((bw : ℚ) / (bh : ℚ))) : ℤ) : ℚ) / (l.width : ℚ) *
        ((bw : ℚ) / ((py_int ((l.height : ℚ) * ((bw : ℚ) / (bh : ℚ))) : ℤ) : ℚ)) =
        (bw : ℚ) / (l.width : ℚ) := by
      generalize hX : ((py_int ((l.height : ℚ) * ((bw : ℚ) / (bh : ℚ))) : ℤ) : ℚ) = X at hnwq ⊢
      field_simp
      ring
    have hsy : (l.height : ℚ) / (l.height : ℚ) * ((bh : ℚ) / (l.height : ℚ)) =
        (bh : ℚ) / (l.height : ℚ) := by
      rw [div_self hhq.ne', one_mul]
    simp only [hsx, hsy]

theorem C8_two_stage_amended_witness :
    (0 < (MangaLayout.mk "" 100 200 [⟨[10, 20, 30, 40], some 3⟩] 0).width) ∧
    (0 < (MangaLayout.mk "" 100 200 [⟨[10, 20, 30, 40], some 3⟩] 0).height) ∧
    (0 < (50 : ℤ)) ∧ (0 < (70 : ℤ)) ∧
    (MangaLayout.mk "" 100 200 [⟨[10, 20, 30, 40], some 3⟩] 0).adjust 50 70 =
      (MangaLayout.mk "" 100 200 [⟨[10, 20, 30, 40], some 3⟩] 0).direct_stretch 50 70 :=
  ⟨by decide, by decide, by decide, by decide,
    C8_two_stage_amended (MangaLayout.mk "" 100 200 [⟨[10, 20, 30, 40], some 3⟩] 0)
      50 70 (by decide) (by decide) (by decide) (by decide)⟩

/-! ## lib/page/layout_generator.py -/

/-- A sampler input panel: `panel_index` plus an optional
`importance_score` (`p.get('importance_score', 5)` defaults to 5). -/
structure Panel where
  panel_index : ℤ
  importance_score : Option ℚ
deriving DecidableEq, Repr

/-- Python `p.get('importance_score', 5)`. -/
def Panel.imp (p : Panel) : ℚ := p.importance_score.getD 5

/-- A rectangle `{'x':…, 'y':…, 'w':…, 'h':…}`. -/
structure Rect where
  x : ℚ
  y : ℚ
  w : ℚ
  h : ℚ
deriving DecidableEq, Repr

/-- The split tag `"H"` / `"V"`. -/
inductive SplitT where
  | H
  | V
deriving DecidableEq, Repr

/-- The binary layout tree: `{"type":"leaf","p_idx":…,"rect":…}` or
`{"type":"node","split":…,"left":…,"right":…}`. -/
inductive LTree where
  | leaf (p_idx : ℤ) (rect : Rect)
  | node (split : SplitT) (left right : LTree)
deriving DecidableEq, Repr

/-- The process RNG, modelled as two oracle streams with cursors: `floats`
supplies the values of `random.random()` and `random.uniform(-0.05,0.05)`
draws (any rational, covering every possible float), `ints` feeds
`random.randint`, which maps the raw value into the requested range. -/
structure Rng where
  floats : ℕ → ℚ
  ints : ℕ → ℕ
  fpos : ℕ
  ipos : ℕ

/-- One draw from the float stream. -/
def Rng.nextFloat (r : Rng) : ℚ × Rng :=
  (r.floats r.fpos, { r with fpos := r.fpos + 1 })

/-- Python `random.randint(lo, hi)`: some value in `[lo, hi]`, here the raw
stream value reduced into range (faithful to randint's contract). -/
def Rng.nextInt (r : Rng) (lo hi : ℕ) : ℕ × Rng :=
  (lo + r.ints r.ipos % (hi - lo + 1), { r with ipos := r.ipos + 1 })

theorem Rng.nextInt_bounds (r : Rng) (lo hi : ℕ) (h : lo ≤ hi) :
    lo ≤ (r.nextInt lo hi).1 ∧ (r.nextInt lo hi).1 ≤ hi := by
  unfold Rng.nextInt
  have := Nat.mod_lt (r.ints r.ipos) (show 0 < hi - lo + 1 by omega)
  omega

/-- The style model: `structure` maps a depth to the probability of an
`"H"` split; `importance` maps a panel count to a rank → target-fraction
table.  JSON string keys (`"depth_3"`, stringified counts and ranks) are
modelled by their numeric values. -/
structure StyleModel where
  structureH : List (ℕ × ℚ)
  importance : List (ℕ × List (ℕ × ℚ))

/-- Structure-probability lookup with the `depth_0` fallback.  A model
with no `depth_0` entry makes Python raise `KeyError`; that unreachable
configuration is modelled by probability 0. -/
def structProb (m : StyleModel) (depth : ℕ) : ℚ :=
  match m.structureH.lookup depth with
  | some p => p
  | none => (m.structureH.lookup 0).getD 0

/-- Sampler configuration: page size and reading direction (the
constructor lowercases the direction string). -/
structure GenConfig where
  w : ℚ
  h : ℚ
  direction : String

/-- Python `_random_tree(panels, rect, depth)`: recursive binary space
partition.  Draw order matches the source: `random.random()` for the
split direction, `random.randint(1, n-1)` for the group split,
`random.uniform(-0.05, 0.05)` for the jitter; under a vertical split in
`'rtl'` direction the earlier group goes to the geometric right, which
is the tree's right branch.  (Python recurses into the `left` dict value
first in every branch, which this threading follows.)  The empty-panels
case cannot arise — Python would raise on `randint(1, -1)` — and is
mapped to a dummy leaf. -/
def random_tree (cfg : GenConfig) (m : StyleModel) :
    List Panel → Rect → ℕ → Rng → LTree × Rng
  | [], rect, _, rng => (LTree.leaf 0 rect, rng)
  | [p], rect, _, rng => (LTree.leaf p.panel_index rect, rng)
  | p1 :: p2 :: rest, rect, depth, rng =>
    let panels := p1 :: p2 :: rest
    let prob_h := structProb m depth
    let rv := rng.nextFloat
    let split_type := if rv.1 < prob_h then SplitT.H else SplitT.V
    let ki := rv.2.nextInt 1 (panels.length - 1)
    let split_idx := ki.1
    let grp_a := panels.take split_idx
    let grp_b := panels.drop split_idx
    let w_a := (grp_a.map Panel.imp).sum
    let w_tot := (panels.map Panel.imp).sum
    let target := if 0 < w_tot then w_a / w_tot else 1/2
    let jv := ki.2.nextFloat
    let rat := max (1/5) (min (4/5) (target + jv.1))
    match split_type with
    | SplitT.H =>
      let rect_a : Rect := ⟨rect.x, rect.y, rect.w, rect.h * rat⟩
      let rect_b : Rect := ⟨rect.x, rect.y + rect.h * rat, rect.w, rect.h * (1 - rat)⟩
      let tl := random_tree cfg m grp_a rect_a (depth + 1) jv.2
      let tr := random_tree cfg m grp_b rect_b (depth + 1) tl.2
      (LTree.node SplitT.H tl.1 tr.1, tr.2)
    | SplitT.V =>
      let w_geo_a := rect.w * rat
      let w_geo_b := rect.w * (1 - rat)
      if cfg.direction = "rtl" then
        let rect_left : Rect := ⟨rect.x, rect.y, w_geo_b, rect.h⟩
        let rect_right : Rect := ⟨rect.x + w_geo_b, rect.y, w_geo_a, rect.h⟩
        let tl := random_tree cfg m grp_b rect_left (depth + 1) jv.2
        let tr := random_tree cfg m grp_a rect_right (depth + 1) tl.2
        (LTree.node SplitT.V tl.1 tr.1, tr.2)
      else
        let rect_left : Rect := ⟨rect.x, rect.y, w_geo_a, rect.h⟩
        let rect_right : Rect := ⟨rect.x + w_geo_a, rect.y, w_geo_b, rect.h⟩
        let tl := random_tree cfg m grp_a rect_left (depth + 1) jv.2
        let tr := random_tree cfg m grp_b rect_right (depth + 1) tl.2
        (LTree.node SplitT.V tl.1 tr.1, tr.2)
termination_by panels _ _ _ => panels.length
decreasing_by
  all_goals
    simp only [List.length_take, List.length_drop, List.length_cons]
    have hb := Rng.nextInt_bounds rng.nextFloat.2 1 (rest.length + 1 + 1 - 1) (by omega)
    omega

/-- Python `_get_leaves`: the leaves of a tree in left-to-right order, as
`(p_idx, rect)` pairs. -/
def get_leaves : LTree → List (ℤ × Rect)
  | LTree.leaf i r => [(i, r)]
  | LTree.node _ l r => get_leaves l ++ get_leaves r

/-- Python `_hash_tree`: the structural signature string. -/
def hash_tree : LTree → String
  | LTree.leaf i _ => "L(" ++ toString i ++ ")"
  | LTree.node s l r =>
    (match s with | SplitT.H => "H" | SplitT.V => "V") ++
      "[" ++ hash_tree l ++ "|" ++ hash_tree r ++ "]"

/-- Rendered area `w * h` of a leaf's rect. -/
def leaf_area (lf : ℤ × Rect) : ℚ := lf.2.w * lf.2.h

/-- Python `min(available_keys, key=lambda k: abs(k - num_panels))`: the first
key (in list order) minimizing the absolute distance, `none` for an
empty key list. -/
def closest_key (keys : List ℕ) (n : ℕ) : Option ℕ :=
  keys.foldl (fun acc k =>
    match acc with
    | none => some k
    | some b => if max k n - min k n < max b n - min b n then some k else acc) none

/-- The importance-table selection of `_score_tree`: exact panel-count
key, else nearest available key, else `none` (Python returns cost 0). -/
def importance_targets (m : StyleModel) (n : ℕ) : Option (List (ℕ × ℚ)) :=
  match m.importance.lookup n with
  | some t => some t
  | none =>
    match closest_key (m.importance.map Prod.fst) n with
    | some c => m.importance.lookup c
    | none => none

/-- The importance-cost loop: per sorted rank with a table entry, add
`(actual_pct - target_pct)^2 * 100`. -/
def imp_cost (targets : List (ℕ × ℚ)) (total_area : ℚ) : ℕ → List (ℤ × Rect) → ℚ
  | _, [] => 0
  | rank, lf :: rest =>
    (match targets.lookup rank with
     | some t => (leaf_area lf / total_area - t) ^ 2 * 100
     | none => 0) + imp_cost targets total_area (rank + 1) rest

/-- The shape-penalty loop: aspect `w/h` (1.0 when `h ≤ 0`), +50 outside
[0.5, 2.0], a further +1000 outside [0.15, 6.0]. -/
def shape_cost : List (ℤ × Rect) → ℚ
  | [] => 0
  | lf :: rest =>
    let asp := if 0 < lf.2.h then lf.2.w / lf.2.h else 1
    (if asp < 1/2 ∨ 2 < asp then 50 else 0) +
      (if asp < 3/20 ∨ 6 < asp then 1000 else 0) + shape_cost rest

/-- Python `_score_tree`: sort leaves by area descending (a stable sort, like
Python's `list.sort` with `reverse=True`), add importance and shape
costs; a model with an empty importance table returns 0 outright. -/
def score_tree (cfg : GenConfig) (m : StyleModel) (tree : LTree) (num_panels : ℕ) : ℚ :=
  let leaves := (get_leaves tree).insertionSort (fun a b => leaf_area b ≤ leaf_area a)
  match importance_targets m num_panels with
  | none => 0
  | some targets => imp_cost targets (cfg.w * cfg.h) 0 leaves + shape_cost leaves

/-- One entry of the flattened output: the original panel's fields plus
the leaf's rect as `bbox = [int(x), int(y), int(w), int(h)]`. -/
structure FlatPanel where
  panel_index : ℤ
  importance_score : Option ℚ
  bbox : List ℤ
deriving DecidableEq, Repr

/-- The loop body of `_flatten_tree`: for each leaf, look up the first
panel with that `panel_index` (`next(...)` raises `StopIteration` when
absent, modelled by `none`). -/
def flatten_leaves (panels : List Panel) : List (ℤ × Rect) → Option (List FlatPanel)
  | [] => some []
  | lf :: rest =>
    match panels.find? (fun p => p.panel_index == lf.1) with
    | none => none
    | some orig =>
      (flatten_leaves panels rest).map (fun tl =>
        ⟨orig.panel_index, orig.importance_score,
          [py_int lf.2.x, py_int lf.2.y, py_int lf.2.w, py_int lf.2.h]⟩ :: tl)

/-- Python `_flatten_tree(node, original_panels)`. -/
def flatten_tree (t : LTree) (panels : List Panel) : Option (List FlatPanel) :=
  flatten_leaves panels (get_leaves t)

/-- The Monte-Carlo loop of `generate_layout`: keep the strictly
cheapest tree (`if cost < best_cost`, so the earliest trial wins ties);
`best_cost` starts at `inf`, modelled by the `none` state. -/
def mc_best (cfg : GenConfig) (m : StyleModel) (panels : List Panel) (num_panels : ℕ) :
    ℕ → Rng → Option (ℚ × LTree) → Option (ℚ × LTree) × Rng
  | 0, rng, best => (best, rng)
  | it + 1, rng, best =>
    let tr := random_tree cfg m panels ⟨0, 0, cfg.w, cfg.h⟩ 0 rng
    let cost := score_tree cfg m tr.1 num_panels
    let best2 :=
      match best with
      | none => some (cost, tr.1)
      | some bc => if cost < bc.1 then some (cost, tr.1) else some bc
    mc_best cfg m panels num_panels it tr.2 best2

/-- Python `generate_layout(panels)` (the `return_tree=False` path): empty input
returns `[]` at once; otherwise 1000 trials, then the winner is
flattened.  `none` models the crash Python would have if no tree were
ever kept (unreachable: the iteration count is positive). -/
def generate_layout (cfg : GenConfig) (m : StyleModel) (panels : List Panel)
    (rng : Rng) : Option (List FlatPanel) × Rng :=
  if panels.isEmpty then (some [], rng)
  else
    let res := mc_best cfg m panels panels.length 1000 rng none
    match res.1 with
    | some bc => (flatten_tree bc.2 panels, res.2)
    | none => (none, res.2)

/-- The candidate-collection loop of `generate_top_k`: 1000 trials, each
recorded as `(cost, tree, tree_hash)` in trial order. -/
def mc_candidates (cfg : GenConfig) (m : StyleModel) (panels : List Panel) (num_panels : ℕ) :
    ℕ → Rng → List (ℚ × LTree × String) × Rng
  | 0, rng => ([], rng)
  | it + 1, rng =>
    let tr := random_tree cfg m panels ⟨0, 0, cfg.w, cfg.h⟩ 0 rng
    let cost := score_tree cfg m tr.1 num_panels
    let rest := mc_candidates cfg m panels num_panels it tr.2
    ((cost, tr.1, hash_tree tr.1) :: rest.1, rest.2)

/-- The selection loop of `generate_top_k`: walk the sorted candidates,
skip already-seen hashes, stop once `k` results are collected. -/
def select_top_k : ℕ → List String → List (ℚ × LTree × String) → List (ℚ × LTree × String)
  | _, _, [] => []
  | 0, _, _ :: _ => []
  | fuel + 1, seen, c :: rest =>
    if c.2.2 ∈ seen then select_top_k (fuel + 1) seen rest
    else c :: select_top_k fuel (c.2.2 :: seen) rest

/-- Python `generate_top_k(panels, k, return_trees=True)`: stable-sort the 1000
candidates by cost ascending (insertion sort is stable, like Python's
Timsort) and take the first `k` hash-distinct entries. -/
def generate_top_k (cfg : GenConfig) (m : StyleModel) (panels : List Panel)
    (k : ℕ) (rng : Rng) : List (ℚ × LTree) × Rng :=
  if panels.isEmpty then ([], rng)
  else
    let cands := mc_candidates cfg m panels panels.length 1000 rng
    let sorted := List.insertionSort (fun a b => a.1 ≤ b.1) cands.1
    ((select_top_k k [] sorted).map (fun c => (c.1, c.2.1)), cands.2)

/-- Python `generate_top_k(panels, k)` with `return_trees=False`: the same
selection, each entry flattened. -/
def generate_top_k_flat (cfg : GenConfig) (m : StyleModel) (panels : List Panel)
    (k : ℕ) (rng : Rng) : List (ℚ × Option (List FlatPanel)) × Rng :=
  if panels.isEmpty then ([], rng)
  else
    let cands := mc_candidates cfg m panels panels.length 1000 rng
    let sorted := List.insertionSort (fun a b => a.1 ≤ b.1) cands.1
    ((select_top_k k [] sorted).map (fun c => (c.1, flatten_tree c.2.1 panels)), cands.2)

/-! ## Theorems about lib/page/layout_generator.py -/

theorem node_leaves_perm {tA tB : LTree} {A B : List Panel} {s : SplitT}
    (hA : List.Perm ((get_leaves tA).map Prod.fst) (A.map Panel.panel_index))
    (hB : List.Perm ((get_leaves tB).map Prod.fst) (B.map Panel.panel_index)) :
    List.Perm ((get_leaves (LTree.node s tA tB)).map Prod.fst)
      ((A ++ B).map Panel.panel_index) := by
  rw [get_leaves, List.map_append, List.map_append]
  exact hA.append hB

/-- Every tree sampled by `_random_tree` carries each input panel's
index on exactly one leaf: the leaf indices are a permutation of the
input indices (group A and group B partition the list; the rtl inversion
only swaps the two sides). -/
theorem random_tree_leaves_perm (cfg : GenConfig) (m : StyleModel) :
    ∀ (N : ℕ) (panels : List Panel), panels.length ≤ N → panels ≠ [] →
      ∀ (rect : Rect) (depth : ℕ) (rng : Rng),
        List.Perm ((get_leaves (random_tree cfg m panels rect depth rng).1).map Prod.fst)
          (panels.map Panel.panel_index) := by
  intro N
  induction N with
  | zero =>
    intro panels hlen hne
    exact absurd (List.eq_nil_of_length_eq_zero (Nat.le_zero.mp hlen)) hne
  | succ N ih =>
    intro panels hlen hne rect depth rng
    match panels, hne with
    | [p], _ => simp [random_tree, get_leaves]
    | p1 :: p2 :: rest, _ =>
      rw [random_tree]
      have hlen2 : (p1 :: p2 :: rest).length = rest.length + 2 := by simp
      set k := (rng.nextFloat.2.nextInt 1 ((p1 :: p2 :: rest).length - 1)).1 with hk
      have hkb := Rng.nextInt_bounds rng.nextFloat.2 1 ((p1 :: p2 :: rest).length - 1)
        (by omega)
      rw [← hk] at hkb
      have hA : ((p1 :: p2 :: rest).take k).length ≤ N := by
        simp only [List.length_take]
        omega
      have hAne : (p1 :: p2 :: rest).take k ≠ [] := by
        apply List.ne_nil_of_length_pos
        simp only [List.length_take]
        omega
      have hB : ((p1 :: p2 :: rest).drop k).length ≤ N := by
        simp only [List.length_drop]
        omega
      have hBne : (p1 :: p2 :: rest).drop k ≠ [] := by
        apply List.ne_nil_of_length_pos
        simp only [List.length_drop]
        omega
      have hsplit : (p1 :: p2 :: rest).take k ++ (p1 :: p2 :: rest).drop k =
        p1 :: p2 :: rest := List.take_append_drop k _
      dsimp only
      split
      · exact (node_leaves_perm (ih _ hA hAne _ _ _) (ih _ hB hBne _ _ _)).trans
          (by rw [hsplit])
      · split
        · have h1 : List.Perm
              (List.map Panel.panel_index
                (List.drop k (p1 :: p2 :: rest) ++ List.take k (p1 :: p2 :: rest)))
              (List.map Panel.panel_index
                (List.take k (p1 :: p2 :: rest) ++ List.drop k (p1 :: p2 :: rest))) := by
            rw [List.map_append, List.map_append]
            exact List.perm_append_comm
          exact (node_leaves_perm (ih _ hB hBne _ _ _) (ih _ hA hAne _ _ _)).trans
            (h1.trans (by rw [hsplit]))
        · exact (node_leaves_perm (ih _ hA hAne _ _ _) (ih _ hB hBne _ _ _)).trans
            (by rw [hsplit])

theorem flatten_leaves_spec (panels : List Panel) :
    ∀ (leaves : List (ℤ × Rect)),
      (∀ i ∈ leaves.map Prod.fst, i ∈ panels.map Panel.panel_index) →
      ∃ l, flatten_leaves panels leaves = some l ∧
        l.map FlatPanel.panel_index = leaves.map Prod.fst := by
  intro leaves
  induction leaves with
  | nil => intro _; exact ⟨[], rfl, rfl⟩
  | cons lf rest ih =>
    intro hmem
    have h1 : lf.1 ∈ panels.map Panel.panel_index := hmem _ (by simp)
    obtain ⟨p, hp, hpi⟩ := List.mem_map.mp h1
    have hfind : (panels.find? (fun p => p.panel_index == lf.1)).isSome :=
      List.find?_isSome.mpr ⟨p, hp, by simpa using hpi⟩
    obtain ⟨q, hq⟩ := Option.isSome_iff_exists.mp hfind
    have hqi : q.panel_index = lf.1 := by
      have := List.find?_some hq
      simpa using this
    obtain ⟨l, hl, hlm⟩ := ih (fun i hi => hmem i (by simp [hi]))
    refine ⟨⟨q.panel_index, q.importance_score,
      [py_int lf.2.x, py_int lf.2.y, py_int lf.2.w, py_int lf.2.h]⟩ :: l, ?_, ?_⟩
    · rw [flatten_leaves, hq, hl]
      rfl
    · simp [hlm, hqi]

theorem mc_best_isSome (cfg : GenConfig) (m : StyleModel) (panels : List Panel)
    (num_panels : ℕ) :
    ∀ (iters : ℕ) (rng : Rng) (bc : ℚ × LTree),
      ∃ bc2, (mc_best cfg m panels num_panels iters rng (some bc)).1 = some bc2 := by
  intro iters
  induction iters with
  | zero => intro rng bc; exact ⟨bc, rfl⟩
  | succ it ih =>
    intro rng bc
    simp only [mc_best]
    split
    · exact ih _ _
    · exact ih _ _

theorem mc_best_none_isSome (cfg : GenConfig) (m : StyleModel) (panels : List Panel)
    (num_panels : ℕ) (iters : ℕ) (hpos : 0 < iters) (rng : Rng) :
    ∃ bc2, (mc_best cfg m panels num_panels iters rng none).1 = some bc2 := by
  cases iters with
  | zero => omega
  | succ it =>
    simp only [mc_best]
    exact mc_best_isSome cfg m panels num_panels it _ _

theorem mc_best_spec (cfg : GenConfig) (m : StyleModel) (panels : List Panel)
    (num_panels : ℕ) (P : LTree → Prop)
    (hP : ∀ rng : Rng, P (random_tree cfg m panels ⟨0, 0, cfg.w, cfg.h⟩ 0 rng).1) :
    ∀ (iters : ℕ) (rng : Rng) (best : Option (ℚ × LTree)),
      (∀ bc ∈ best, P bc.2) →
      ∀ bc2 ∈ (mc_best cfg m panels num_panels iters rng best).1, P bc2.2 := by
  intro iters
  induction iters with
  | zero =>
    intro rng best hbest bc2 h2
    simp only [mc_best] at h2
    exact hbest _ h2
  | succ it ih =>
    intro rng best hbest bc2 h2
    simp only [mc_best] at h2
    refine ih _ _ ?_ _ h2
    intro bc hbc
    cases best with
    | none =>
      simp only [Option.mem_def, Option.some.injEq] at hbc
      rw [← hbc]
      exact hP rng
    | some bc0 =>
      dsimp only at hbc
      split at hbc
      · simp only [Option.mem_def, Option.some.injEq] at hbc
        rw [← hbc]
        exact hP rng
      · simp only [Option.mem_def, Option.some.injEq] at hbc
        rw [← hbc]
        exact hbest bc0 rfl

theorem mc_candidates_spec (cfg : GenConfig) (m : StyleModel) (panels : List Panel)
    (num_panels : ℕ) (P : LTree → Prop)
    (hP : ∀ rng : Rng, P (random_tree cfg m panels ⟨0, 0, cfg.w, cfg.h⟩ 0 rng).1) :
    ∀ (iters : ℕ) (rng : Rng),
      ∀ c ∈ (mc_candidates cfg m panels num_panels iters rng).1, P c.2.1 := by
  intro iters
  induction iters with
  | zero =>
    intro rng c hc
    simp only [mc_candidates] at hc
    simp at hc
  | succ it ih =>
    intro rng c hc
    simp only [mc_candidates] at hc
    rcases List.mem_cons.mp hc with h | h
    · rw [h]
      exact hP rng
    · exact ih _ _ h

theorem select_top_k_sublist :
    ∀ (fuel : ℕ) (seen : List String) (l : List (ℚ × LTree × String)),
      (select_top_k fuel seen l).Sublist l := by
  intro fuel seen l
  induction l generalizing fuel seen with
  | nil => simp [select_top_k]
  | cons c rest ih =>
    cases fuel with
    | zero => rw [select_top_k]; exact List.nil_sublist _
    | succ f =>
      rw [select_top_k]
      split
      · exact (ih _ _).cons c
      · exact (ih _ _).cons₂ c

/-- The flattening of any tree whose leaf indices are a permutation of
the input indices succeeds and hits each input index exactly once. -/
theorem flatten_of_perm {panels : List Panel} {t : LTree}
    (hperm : List.Perm ((get_leaves t).map Prod.fst) (panels.map Panel.panel_index))
    (hnd : (panels.map Panel.panel_index).Nodup) :
    ∃ l, flatten_tree t panels = some l ∧ l.length = panels.length ∧
      List.Perm (l.map FlatPanel.panel_index) (panels.map Panel.panel_index) ∧
      (l.map FlatPanel.panel_index).Nodup := by
  obtain ⟨l, hl, hlm⟩ := flatten_leaves_spec panels (get_leaves t)
    (fun i hi => hperm.mem_iff.mp hi)
  refine ⟨l, hl, ?_, ?_, ?_⟩
  · have h1 : (l.map FlatPanel.panel_index).length =
        ((get_leaves t).map Prod.fst).length := by rw [hlm]
    have h2 := hperm.length_eq
    simpa using h1.trans h2
  · rw [hlm]
    exact hperm
  · rw [hlm]
    exact (hperm.nodup_iff).mpr hnd

/-- C4: for every non-empty panel list with distinct `panel_index`
values, for every style model, page size, direction and RNG stream, the
flattened layout returned by `generate_layout` has exactly one entry per
input panel — its index multiset is a permutation of the input indices,
with no duplicates and no omissions — and the same holds for every
flattened entry of `generate_top_k`. -/
theorem C4_panel_count (cfg : GenConfig) (m : StyleModel) (panels : List Panel)
    (rng : Rng) (k : ℕ) (hne : panels ≠ [])
    (hnd : (panels.map Panel.panel_index).Nodup) :
    (∃ l, (generate_layout cfg m panels rng).1 = some l ∧
      l.length = panels.length ∧
      List.Perm (l.map FlatPanel.panel_index) (panels.map Panel.panel_index) ∧
      (l.map FlatPanel.panel_index).Nodup) ∧
    (∀ ce ∈ (generate_top_k_flat cfg m panels k rng).1,
      ∃ l, ce.2 = some l ∧ l.length = panels.length ∧
        List.Perm (l.map FlatPanel.panel_index) (panels.map Panel.panel_index) ∧
        (l.map FlatPanel.panel_index).Nodup) := by
  have hPall : ∀ rng2 : Rng,
      List.Perm ((get_leaves (random_tree cfg m panels ⟨0, 0, cfg.w, cfg.h⟩ 0 rng2).1).map
        Prod.fst) (panels.map Panel.panel_index) :=
    fun rng2 => random_tree_leaves_perm cfg m panels.length panels le_rfl hne _ _ _
  have hemp : panels.isEmpty = false := by
    cases panels with
    | nil => exact absurd rfl hne
    | cons a l => rfl
  constructor
  · have hcond : ¬(panels.isEmpty = true) := by simp [hemp]
    rw [generate_layout, if_neg hcond]
    obtain ⟨bc2, hbc2⟩ := mc_best_none_isSome cfg m panels panels.length 1000
      (by norm_num) rng
    have hP2 : List.Perm ((get_leaves bc2.2).map Prod.fst)
        (panels.map Panel.panel_index) :=
      mc_best_spec cfg m panels panels.length
        (fun t => List.Perm ((get_leaves t).map Prod.fst)
          (panels.map Panel.panel_index)) hPall 1000 rng none
        (fun bc hbc => absurd hbc (by simp)) bc2 (Option.mem_def.mpr hbc2)
    dsimp only
    rw [hbc2]
    exact flatten_of_perm hP2 hnd
  · intro ce hce
    have hcond : ¬(panels.isEmpty = true) := by simp [hemp]
    rw [generate_top_k_flat, if_neg hcond] at hce
    dsimp only at hce
    generalize hL : (mc_candidates cfg m panels panels.length 1000 rng).1 = cands0 at hce
    obtain ⟨c, hc, hcee⟩ := List.mem_map.mp hce
    have h1 : c ∈ List.insertionSort (fun a b => a.1 ≤ b.1) cands0 :=
      List.Sublist.subset (select_top_k_sublist k []
        (List.insertionSort (fun a b => a.1 ≤ b.1) cands0)) hc
    have hcin : c ∈ cands0 :=
      (List.perm_insertionSort (fun a b => a.1 ≤ b.1) cands0).mem_iff.mp h1
    rw [← hL] at hcin
    have hPc := mc_candidates_spec cfg m panels panels.length
      (fun t => List.Perm ((get_leaves t).map Prod.fst)
        (panels.map Panel.panel_index)) hPall 1000 rng c hcin
    obtain ⟨l, hl, hlen, hperm2, hnd2⟩ := flatten_of_perm hPc hnd
    refine ⟨l, ?_, hlen, hperm2, hnd2⟩
    rw [← hcee]
    exact hl

/-- C10: for the empty panel list both `generate_layout` and
`generate_top_k` (tree and flattened forms) return the empty list
immediately, for every style model, page size, reading direction and
`k`, without raising and with the RNG state untouched — no random draws
are consumed. -/
theorem C10_empty_input (cfg : GenConfig) (m : StyleModel) (k : ℕ) (rng : Rng) :
    generate_layout cfg m [] rng = (some [], rng) ∧
    generate_top_k cfg m [] k rng = ([], rng) ∧
    generate_top_k_flat cfg m [] k rng = ([], rng) :=
  ⟨rfl, rfl, rfl⟩

theorem select_top_k_length :
    ∀ (l : List (ℚ × LTree × String)) (fuel : ℕ) (seen : List String),
      (select_top_k fuel seen l).length ≤ fuel := by
  intro l
  induction l with
  | nil =>
    intro fuel seen
    rw [select_top_k]
    simp
  | cons c rest ih =>
    intro fuel seen
    cases fuel with
    | zero => rw [select_top_k]; simp
    | succ f =>
      rw [select_top_k]
      split
      · exact ih (f + 1) seen
      · simpa using ih f (c.2.2 :: seen)

theorem select_top_k_hashes :
    ∀ (l : List (ℚ × LTree × String)) (fuel : ℕ) (seen : List String),
      (∀ c ∈ select_top_k fuel seen l, c.2.2 ∉ seen) ∧
      (select_top_k fuel seen l).Pairwise (fun a b => a.2.2 ≠ b.2.2) := by
  intro l
  induction l with
  | nil =>
    intro fuel seen
    rw [select_top_k]
    exact ⟨fun c hc => absurd hc (List.not_mem_nil c), List.Pairwise.nil⟩
  | cons c rest ih =>
    intro fuel seen
    cases fuel with
    | zero =>
      rw [select_top_k]
      exact ⟨fun c hc => absurd hc (List.not_mem_nil c), List.Pairwise.nil⟩
    | succ f =>
      rw [select_top_k]
      split
      · exact ih (f + 1) seen
      case isFalse hns =>
        obtain ⟨ihmem, ihpw⟩ := ih f (c.2.2 :: seen)
        constructor
        · intro x hx
          rcases List.mem_cons.mp hx with h | h
          · rw [h]; exact hns
          · exact fun hxs => ihmem x h (List.mem_cons_of_mem _ hxs)
        · refine List.Pairwise.cons ?_ ihpw
          intro x hx
          have := ihmem x hx
          intro hEq
          exact this (by rw [← hEq]; exact List.mem_cons_self _ _)

theorem mc_candidates_hash (cfg : GenConfig) (m : StyleModel) (panels : List Panel)
    (num_panels : ℕ) :
    ∀ (iters : ℕ) (rng : Rng),
      ∀ c ∈ (mc_candidates cfg m panels num_panels iters rng).1,
        c.2.2 = hash_tree c.2.1 := by
  intro iters
  induction iters with
  | zero =>
    intro rng c hc
    simp only [mc_candidates] at hc
    simp at hc
  | succ it ih =>
    intro rng c hc
    simp only [mc_candidates] at hc
    rcases List.mem_cons.mp hc with h | h
    · rw [h]
    · exact ih _ _ h

instance : IsTotal (ℚ × LTree × String) (fun a b => a.1 ≤ b.1) :=
  ⟨fun a b => le_total a.1 b.1⟩

instance : IsTrans (ℚ × LTree × String) (fun a b => a.1 ≤ b.1) :=
  ⟨fun _ _ _ hab hbc => le_trans hab hbc⟩

/-- C5: `generate_top_k(panels, k)` returns at most `k` entries, no two
returned entries have trees with identical structural signatures
(`_hash_tree` strings), and the entries appear in non-decreasing cost
order — for every style model, page size, direction and RNG stream. -/
theorem C5_topk_unique_sorted (cfg : GenConfig) (m : StyleModel) (panels : List Panel)
    (k : ℕ) (rng : Rng) (hne : panels ≠ []) :
    ((generate_top_k cfg m panels k rng).1).length ≤ k ∧
    ((generate_top_k cfg m panels k rng).1).Pairwise
      (fun a b => hash_tree a.2 ≠ hash_tree b.2) ∧
    ((generate_top_k cfg m panels k rng).1).Pairwise (fun a b => a.1 ≤ b.1) := by
  have hemp : panels.isEmpty = false := by
    cases panels with
    | nil => exact absurd rfl hne
    | cons a l => rfl
  have hcond : ¬(panels.isEmpty = true) := by simp [hemp]
  have hhash0 := mc_candidates_hash cfg m panels panels.length 1000 rng
  rw [generate_top_k, if_neg hcond]
  dsimp only
  generalize hL : (mc_candidates cfg m panels panels.length 1000 rng).1 = cands0 at hhash0 ⊢
  have hsorted : List.Sorted (fun (a b : ℚ × LTree × String) => a.1 ≤ b.1)
      (List.insertionSort (fun a b => a.1 ≤ b.1) cands0) :=
    List.sorted_insertionSort (fun a b => a.1 ≤ b.1) cands0
  have hselpw : (select_top_k k [] (List.insertionSort (fun a b => a.1 ≤ b.1) cands0)).Pairwise
      (fun a b => a.1 ≤ b.1) :=
    List.Pairwise.sublist (select_top_k_sublist k [] _) hsorted
  have hmemc : ∀ c ∈ select_top_k k [] (List.insertionSort (fun a b => a.1 ≤ b.1) cands0),
      c.2.2 = hash_tree c.2.1 := by
    intro c hc
    have h1 : c ∈ List.insertionSort (fun a b => a.1 ≤ b.1) cands0 :=
      List.Sublist.subset (select_top_k_sublist k [] _) hc
    exact hhash0 c ((List.perm_insertionSort (fun a b => a.1 ≤ b.1) cands0).mem_iff.mp h1)
  refine ⟨?_, ?_, ?_⟩
  · rw [List.length_map]
    exact select_top_k_length _ k []
  · rw [List.pairwise_map]
    refine List.Pairwise.imp_of_mem ?_ (select_top_k_hashes _ k []).2
    intro a b ha hb hne2
    have hha := hmemc a ha
    have hhb := hmemc b hb
    dsimp only
    rw [← hha, ← hhb]
    exact hne2
  · rw [List.pairwise_map]
    exact hselpw

theorem C5_topk_unique_sorted_witness :
    ([Panel.mk 0 (some 5)] ≠ []) ∧
    (((generate_top_k ⟨1000, 1414, "rtl"⟩ ⟨[(0, 1/2)], [(1, [(0, 1)])]⟩
        [Panel.mk 0 (some 5)] 3 ⟨fun _ => 0, fun _ => 0, 0, 0⟩).1).length ≤ 3 ∧
     ((generate_top_k ⟨1000, 1414, "rtl"⟩ ⟨[(0, 1/2)], [(1, [(0, 1)])]⟩
        [Panel.mk 0 (some 5)] 3 ⟨fun _ => 0, fun _ => 0, 0, 0⟩).1).Pairwise
        (fun a b => hash_tree a.2 ≠ hash_tree b.2) ∧
     ((generate_top_k ⟨1000, 1414, "rtl"⟩ ⟨[(0, 1/2)], [(1, [(0, 1)])]⟩
        [Panel.mk 0 (some 5)] 3 ⟨fun _ => 0, fun _ => 0, 0, 0⟩).1).Pairwise
        (fun a b => a.1 ≤ b.1)) :=
  ⟨by decide, C5_topk_unique_sorted ⟨1000, 1414, "rtl"⟩ ⟨[(0, 1/2)], [(1, [(0, 1)])]⟩
    [Panel.mk 0 (some 5)] 3 ⟨fun _ => 0, fun _ => 0, 0, 0⟩ (by decide)⟩

theorem C4_panel_count_witness :
    ([Panel.mk 0 (some 5), Panel.mk 1 (some 5)] ≠ []) ∧
    (([Panel.mk 0 (some 5), Panel.mk 1 (some 5)].map Panel.panel_index).Nodup) ∧
    ((∃ l, (generate_layout ⟨1000, 1414, "rtl"⟩ ⟨[(0, 1/2)], [(2, [(0, 3/5), (1, 2/5)])]⟩
        [Panel.mk 0 (some 5), Panel.mk 1 (some 5)] ⟨fun _ => 0, fun _ => 0, 0, 0⟩).1 = some l ∧
      l.length = [Panel.mk 0 (some 5), Panel.mk 1 (some 5)].length ∧
      List.Perm (l.map FlatPanel.panel_index)
        ([Panel.mk 0 (some 5), Panel.mk 1 (some 5)].map Panel.panel_index) ∧
      (l.map FlatPanel.panel_index).Nodup) ∧
    (∀ ce ∈ (generate_top_k_flat ⟨1000, 1414, "rtl"⟩ ⟨[(0, 1/2)], [(2, [(0, 3/5), (1, 2/5)])]⟩
        [Panel.mk 0 (some 5), Panel.mk 1 (some 5)] 3 ⟨fun _ => 0, fun _ => 0, 0, 0⟩).1,
      ∃ l, ce.2 = some l ∧ l.length = [Panel.mk 0 (some 5), Panel.mk 1 (some 5)].length ∧
        List.Perm (l.map FlatPanel.panel_index)
          ([Panel.mk 0 (some 5), Panel.mk 1 (some 5)].map Panel.panel_index) ∧
        (l.map FlatPanel.panel_index).Nodup)) :=
  ⟨by decide, by decide,
    C4_panel_count ⟨1000, 1414, "rtl"⟩ ⟨[(0, 1/2)], [(2, [(0, 3/5), (1, 2/5)])]⟩
      [Panel.mk 0 (some 5), Panel.mk 1 (some 5)] ⟨fun _ => 0, fun _ => 0, 0, 0⟩ 3
      (by decide) (by decide)⟩

/-! ## lib/page/layout_optimizer.py -/

/-- A 2-D point `[x, y]`. -/
abbrev Pt := ℚ × ℚ

/-- Python `np.min` over a list of floats (0 for the empty list, where numpy
raises instead; callers never pass an empty polygon). -/
def list_min : List ℚ → ℚ
  | [] => 0
  | [x] => x
  | x :: y :: rest => min x (list_min (y :: rest))

/-- Python `np.max` over a list of floats (same empty-list convention). -/
def list_max : List ℚ → ℚ
  | [] => 0
  | [x] => x
  | x :: y :: rest => max x (list_max (y :: rest))

/-- Python `_shrink_polygon(polygon, px)`: centroid = mean of the vertices;
bbox width/height from min/max; if either dimension is at most `2*px`
the polygon is returned unchanged; otherwise every vertex moves toward
the centroid by the smaller per-axis scale `(dim - 2*px)/dim`. -/
def shrink_polygon (polygon : List Pt) (px : ℚ) : List Pt :=
  let xs := polygon.map Prod.fst
  let ys := polygon.map Prod.snd
  let cx := xs.sum / (polygon.length : ℚ)
  let cy := ys.sum / (polygon.length : ℚ)
  let w := list_max xs - list_min xs
  let h := list_max ys - list_min ys
  if w ≤ px * 2 ∨ h ≤ px * 2 then polygon
  else
    let scale := min ((w - px * 2) / w) ((h - px * 2) / h)
    polygon.map fun p => (cx + (p.1 - cx) * scale, cy + (p.2 - cy) * scale)

/-- One optimizer output record `{"panel_index":…, "polygon":…}`. -/
structure PanelPoly where
  panel_index : ℤ
  polygon : List Pt
deriving DecidableEq, Repr

/-- Optimizer configuration: page size and gutter. -/
structure OptConfig where
  w : ℚ
  h : ℚ
  gutter : ℚ

/-- Python `_apply_gutters(panels)`: identity when `gutter ≤ 0`, else shrink
every panel's polygon by the gutter. -/
def apply_gutters (cfg : OptConfig) (panels : List PanelPoly) : List PanelPoly :=
  if cfg.gutter ≤ 0 then panels
  else panels.map fun p => { p with polygon := shrink_polygon p.polygon cfg.gutter }

/-- Signed distance of `p` from the cut line through `o` with normal
`nv` (the dot-product test of `_clip_polygon`). -/
def side_dist (nv o p : Pt) : ℚ := nv.1 * (p.1 - o.1) + nv.2 * (p.2 - o.2)

/-- One edge step of `_clip_polygon`: `acc = (negative, positive)`
output polygons, `pc = (prev, curr)` vertices. -/
def clip_step (nv o : Pt) (acc : List Pt × List Pt) (pc : Pt × Pt) : List Pt × List Pt :=
  let prev := pc.1
  let curr := pc.2
  let curr_dist := side_dist nv o curr
  let prev_dist := side_dist nv o prev
  if 0 ≤ curr_dist then
    if prev_dist < 0 then
      let t := prev_dist / (prev_dist - curr_dist)
      let ip : Pt := (prev.1 + t * (curr.1 - prev.1), prev.2 + t * (curr.2 - prev.2))
      (acc.1 ++ [ip], acc.2 ++ [ip, curr])
    else
      (acc.1, acc.2 ++ [curr])
  else
    if 0 ≤ prev_dist then
      let t := prev_dist / (prev_dist - curr_dist)
      let ip : Pt := (prev.1 + t * (curr.1 - prev.1), prev.2 + t * (curr.2 - prev.2))
      (acc.1 ++ [ip, curr], acc.2 ++ [ip])
    else
      (acc.1 ++ [curr], acc.2)

/-- The cyclically shifted vertex list pairing `poly[i-1]` with
`poly[i]` (Python's `subject[i-1]` wraps to the last vertex at `i=0`). -/
def prev_list (poly : List Pt) : List Pt :=
  match poly.getLast? with
  | none => []
  | some p => p :: poly.dropLast

/-- Python `_clip_polygon(poly, normal, origin)`: half-plane clip, returning
`(negative-side, positive-side)` polygons. -/
def clip_polygon (poly : List Pt) (nv o : Pt) : List Pt × List Pt :=
  ((prev_list poly).zip poly).foldl (clip_step nv o) ([], [])

/-- Number of internal (split) nodes, `len(_collect_nodes(tree))`. -/
def internal_count : LTree → ℕ
  | LTree.leaf _ _ => 0
  | LTree.node _ l r => 1 + internal_count l + internal_count r

/-- The `(ratio, angle)` for the node at pre-order position `i` of the
flat parameter vector (`_tree_to_panels` maps `_collect_nodes` order —
Python keys this map by `id(node)`; the trees built by the generator are
made of distinct fresh objects, so `id`-keying coincides with pre-order
position), defaulting to `(0.5, 0.0)` past the end. -/
def param_at (params : List ℚ) (i : ℕ) : ℚ × ℚ :=
  if 2 * i < params.length then (params.getD (2 * i) 0, params.getD (2 * i + 1) 0)
  else (1/2, 0)

/-- Python `_slice_recursive(node, poly, param_map, results)`: a leaf emits its
panel; a split node computes the cut line through the bbox-derived pivot
with the normal rotated by `angle` (`math.sin`/`math.cos` are
floating-point transcendental functions, supplied as the oracles `sinF`
and `cosF`), clips, and recurses — the left child consumes the next
pre-order parameter slot, the right child the slot after the whole left
subtree. -/
def slice_recursive (sinF cosF : ℚ → ℚ) (params : List ℚ) :
    LTree → List Pt → ℕ → List PanelPoly
  | LTree.leaf idx _, poly, _ => [⟨idx, poly⟩]
  | LTree.node s l r, poly, i =>
    let pa := param_at params i
    let xs := poly.map Prod.fst
    let ys := poly.map Prod.snd
    let min_x := list_min xs
    let min_y := list_min ys
    let w := list_max xs - min_x
    let h := list_max ys - min_y
    let center_x := min_x + w / 2
    let center_y := min_y + h / 2
    let nvP0 : Pt × Pt :=
      match s with
      | SplitT.H => ((sinF pa.2, cosF pa.2), (center_x, min_y + h * pa.1))
      | SplitT.V => ((cosF pa.2, sinF pa.2), (min_x + w * pa.1, center_y))
    let ab := clip_polygon poly nvP0.1 nvP0.2
    slice_recursive sinF cosF params l ab.1 (i + 1) ++
      slice_recursive sinF cosF params r ab.2 (i + 1 + internal_count l)

/-- Python `_tree_to_panels(tree, params, meta)`: slice the full-page
quadrilateral recursively (the `meta` argument is unused there). -/
def tree_to_panels (cfg : OptConfig) (sinF cosF : ℚ → ℚ) (tree : LTree)
    (params : List ℚ) : List PanelPoly :=
  slice_recursive sinF cosF params tree [(0, 0), (cfg.w, 0), (cfg.w, cfg.h), (0, cfg.h)] 0

/-- Python `LayoutOptimizer.optimize(layout_tree, panels_metadata)`: with zero
cut nodes it returns `_tree_to_panels(tree, [], …)` directly — WITHOUT
`_apply_gutters`; otherwise scipy's bounded minimizer (an external
solver, modelled by the oracle vector `minimize_result`) supplies the
parameters and the gutters are applied. -/
def optimize (cfg : OptConfig) (sinF cosF : ℚ → ℚ) (minimize_result : List ℚ)
    (tree : LTree) : List PanelPoly :=
  if internal_count tree = 0 then tree_to_panels cfg sinF cosF tree []
  else apply_gutters cfg (tree_to_panels cfg sinF cosF tree minimize_result)

/-! ## Theorems about lib/page/layout_optimizer.py -/

/-- C3 counterexample: with the default page and gutter (1000×1414,
gutter 20) and a single-leaf tree, `optimize` returns the raw full-page
panel, NOT the gutter-shrunk one the claim promises: applying the gutter
shrink to the same panel gives a different polygon. -/
theorem C3_single_leaf_cex :
    optimize ⟨1000, 1414, 20⟩ (fun _ => 0) (fun _ => 0) []
        (LTree.leaf 0 ⟨0, 0, 1000, 1414⟩) ≠
      apply_gutters ⟨1000, 1414, 20⟩
        (tree_to_panels ⟨1000, 1414, 20⟩ (fun _ => 0) (fun _ => 0)
          (LTree.leaf 0 ⟨0, 0, 1000, 1414⟩) []) := by
  norm_num [optimize, apply_gutters, tree_to_panels, slice_recursive,
    shrink_polygon, internal_count, list_min, list_max]

/-- C3 (amended): for every single-leaf tree (zero split nodes),
`optimize` returns the one full-page leaf panel unmodified and does NOT
apply the gutter shrink to it — the `num_cuts == 0` early return skips
`_apply_gutters`. -/
theorem C3_single_leaf_amended (cfg : OptConfig) (sinF cosF : ℚ → ℚ)
    (minimize_result : List ℚ) (idx : ℤ) (rect : Rect) :
    optimize cfg sinF cosF minimize_result (LTree.leaf idx rect) =
      [⟨idx, [(0, 0), (cfg.w, 0), (cfg.w, cfg.h), (0, cfg.h)]⟩] := by
  rw [optimize, if_pos (show internal_count (LTree.leaf idx rect) = 0 from rfl)]
  rfl

theorem list_min_le : ∀ (l : List ℚ) (a : ℚ), a ∈ l → list_min l ≤ a
  | [], a, ha => absurd ha (List.not_mem_nil a)
  | [x], a, ha => by
    obtain rfl := List.mem_singleton.mp ha
    simp [list_min]
  | x :: y :: rest, a, ha => by
    rw [list_min]
    rcases List.mem_cons.mp ha with rfl | h
    · exact min_le_left _ _
    · exact le_trans (min_le_right _ _) (list_min_le (y :: rest) a h)

theorem le_list_max : ∀ (l : List ℚ) (a : ℚ), a ∈ l → a ≤ list_max l
  | [], a, ha => absurd ha (List.not_mem_nil a)
  | [x], a, ha => by
    obtain rfl := List.mem_singleton.mp ha
    simp [list_max]
  | x :: y :: rest, a, ha => by
    rw [list_max]
    rcases List.mem_cons.mp ha with rfl | h
    · exact le_max_left _ _
    · exact le_trans (le_list_max (y :: rest) a h) (le_max_right _ _)

theorem list_min_mem : ∀ (l : List ℚ), l ≠ [] → list_min l ∈ l
  | [], h => absurd rfl h
  | [x], _ => by simp [list_min]
  | x :: y :: rest, _ => by
    rw [list_min]
    rcases le_total x (list_min (y :: rest)) with h | h
    · rw [min_eq_left h]
      exact List.mem_cons_self _ _
    · rw [min_eq_right h]
      exact List.mem_cons_of_mem _ (list_min_mem (y :: rest) (by simp))

theorem list_max_mem : ∀ (l : List ℚ), l ≠ [] → list_max l ∈ l
  | [], h => absurd rfl h
  | [x], _ => by simp [list_max]
  | x :: y :: rest, _ => by
    rw [list_max]
    rcases le_total x (list_max (y :: rest)) with h | h
    · rw [max_eq_right h]
      exact List.mem_cons_of_mem _ (list_max_mem (y :: rest) (by simp))
    · rw [max_eq_left h]
      exact List.mem_cons_self _ _

theorem sum_lower (b : ℚ) : ∀ (l : List ℚ), (∀ x ∈ l, b ≤ x) →
    b * (l.length : ℚ) ≤ l.sum := by
  intro l
  induction l with
  | nil => intro _; simp
  | cons x xs ih =>
    intro hb
    have h1 := hb x (List.mem_cons_self _ _)
    have h2 := ih (fun y hy => hb y (List.mem_cons_of_mem _ hy))
    simp only [List.length_cons, List.sum_cons]
    push_cast
    linarith

theorem sum_upper (b : ℚ) : ∀ (l : List ℚ), (∀ x ∈ l, x ≤ b) →
    l.sum ≤ b * (l.length : ℚ) := by
  intro l
  induction l with
  | nil => intro _; simp
  | cons x xs ih =>
    intro hb
    have h1 := hb x (List.mem_cons_self _ _)
    have h2 := ih (fun y hy => hb y (List.mem_cons_of_mem _ hy))
    simp only [List.length_cons, List.sum_cons]
    push_cast
    linarith

/-- The mean of a list lies strictly between its min and its max as soon
as min < max. -/
theorem mean_bounds (l : List ℚ) (hne : l ≠ []) (hlt : list_min l < list_max l) :
    list_min l < l.sum / (l.length : ℚ) ∧ l.sum / (l.length : ℚ) < list_max l := by
  have hn0 : 0 < l.length := List.length_pos.mpr hne
  have hn : (0 : ℚ) < (l.length : ℚ) := by exact_mod_cast hn0
  constructor
  · rw [lt_div_iff₀ hn]
    have hmem := list_max_mem l hne
    have hperm := List.perm_cons_erase hmem
    have hsum : l.sum = list_max l + (l.erase (list_max l)).sum := by
      rw [hperm.sum_eq, List.sum_cons]
    have hlen := List.length_erase_of_mem hmem
    have hlenq : ((l.erase (list_max l)).length : ℚ) = (l.length : ℚ) - 1 := by
      rw [hlen]
      push_cast [Nat.cast_sub hn0]
      ring
    have hlow := sum_lower (list_min l) (l.erase (list_max l))
      (fun x hx => list_min_le l x (List.mem_of_mem_erase hx))
    rw [hlenq] at hlow
    nlinarith
  · rw [div_lt_iff₀ hn]
    have hmem := list_min_mem l hne
    have hperm := List.perm_cons_erase hmem
    have hsum : l.sum = list_min l + (l.erase (list_min l)).sum := by
      rw [hperm.sum_eq, List.sum_cons]
    have hlen := List.length_erase_of_mem hmem
    have hlenq : ((l.erase (list_min l)).length : ℚ) = (l.length : ℚ) - 1 := by
      rw [hlen]
      push_cast [Nat.cast_sub hn0]
      ring
    have hup := sum_upper (list_max l) (l.erase (list_min l))
      (fun x hx => le_list_max l x (List.mem_of_mem_erase hx))
    rw [hlenq] at hup
    nlinarith

theorem sum_range_getD : ∀ (l : List Pt),
    ∑ i ∈ Finset.range l.length, l.getD i (0, 0) =
      ((l.map Prod.fst).sum, (l.map Prod.snd).sum) := by
  intro l
  induction l with
  | nil => simp
  | cons p rest ih =>
    rw [List.length_cons, Finset.sum_range_succ']
    have h1 : ∀ i, (p :: rest).getD (i + 1) (0, 0) = rest.getD i (0, 0) := fun i => rfl
    simp only [h1, ih]
    have h0 : (p :: rest).getD 0 (0, 0) = p := rfl
    rw [h0]
    ext
    · simp [Prod.fst_add, add_comm]
    · simp [Prod.snd_add, add_comm]

/-- The vertex centroid of a nonempty polygon lies in the convex hull of
its vertices. -/
theorem centroid_mem_convexHull (poly : List Pt) (hne : poly ≠ []) :
    ((poly.map Prod.fst).sum / (poly.length : ℚ),
      (poly.map Prod.snd).sum / (poly.length : ℚ)) ∈
      convexHull ℚ {p : Pt | p ∈ poly} := by
  have hn0 : 0 < poly.length := List.length_pos.mpr hne
  have hn : (0 : ℚ) < (poly.length : ℚ) := by exact_mod_cast hn0
  have hw0 : ∀ i ∈ Finset.range poly.length, (0 : ℚ) ≤ (fun _ : ℕ => (1 : ℚ)) i :=
    fun i _ => zero_le_one
  have hws : (0 : ℚ) < ∑ i ∈ Finset.range poly.length, (fun _ : ℕ => (1 : ℚ)) i := by
    simp only [Finset.sum_const, Finset.card_range, nsmul_eq_mul, mul_one]
    exact hn
  have hz : ∀ i ∈ Finset.range poly.length,
      (fun i => poly.getD i (0, 0)) i ∈ {p : Pt | p ∈ poly} := by
    intro i hi
    have hilt : i < poly.length := Finset.mem_range.mp hi
    simp only [Set.mem_setOf_eq]
    rw [List.getD_eq_getElem?_getD, List.getElem?_eq_getElem hilt]
    exact List.getElem_mem hilt
  have hcm := Finset.centerMass_mem_convexHull (Finset.range poly.length) hw0 hws hz
  have heq : (Finset.range poly.length).centerMass (fun _ : ℕ => (1 : ℚ))
      (fun i => poly.getD i (0, 0)) =
      ((poly.map Prod.fst).sum / (poly.length : ℚ),
        (poly.map Prod.snd).sum / (poly.length : ℚ)) := by
    rw [Finset.centerMass]
    simp only [one_smul, Finset.sum_const, Finset.card_range, nsmul_eq_mul, mul_one]
    rw [sum_range_getD]
    rw [Prod.smul_mk, smul_eq_mul, smul_eq_mul]
    rw [inv_mul_eq_div, inv_mul_eq_div]
  rw [heq] at hcm
  exact hcm

/-- C9: the gutter shrink (a) with gutter 0 returns every polygon
unchanged, (b) returns the polygon unchanged in the degenerate case
where either bbox dimension is at most `2*gutter`, and (c) otherwise
maps every vertex strictly inside the original bounding box and into the
convex hull of the original vertices — the shrunk polygon is strictly
contained in the pre-shrink (convex) polygon. -/
theorem C9_gutter_shrink (poly : List Pt) (px : ℚ) (hne : poly ≠ []) :
    shrink_polygon poly 0 = poly ∧
    ((list_max (poly.map Prod.fst) - list_min (poly.map Prod.fst) ≤ px * 2 ∨
      list_max (poly.map Prod.snd) - list_min (poly.map Prod.snd) ≤ px * 2) →
      shrink_polygon poly px = poly) ∧
    (0 < px →
      px * 2 < list_max (poly.map Prod.fst) - list_min (poly.map Prod.fst) →
      px * 2 < list_max (poly.map Prod.snd) - list_min (poly.map Prod.snd) →
      ∀ q ∈ shrink_polygon poly px,
        q ∈ convexHull ℚ {p : Pt | p ∈ poly} ∧
        list_min (poly.map Prod.fst) < q.1 ∧ q.1 < list_max (poly.map Prod.fst) ∧
        list_min (poly.map Prod.snd) < q.2 ∧ q.2 < list_max (poly.map Prod.snd)) := by
  refine ⟨?_, ?_, ?_⟩
  · -- gutter 0: identity
    rw [shrink_polygon]
    dsimp only
    split
    · rfl
    case isFalse hcond =>
      push_neg at hcond
      obtain ⟨hw0, hh0⟩ := hcond
      have hwpos : (0 : ℚ) < list_max (poly.map Prod.fst) - list_min (poly.map Prod.fst) := by
        linarith
      have hhpos : (0 : ℚ) < list_max (poly.map Prod.snd) - list_min (poly.map Prod.snd) := by
        linarith
      have e1 : (list_max (poly.map Prod.fst) - list_min (poly.map Prod.fst) - 0 * 2) /
          (list_max (poly.map Prod.fst) - list_min (poly.map Prod.fst)) = 1 := by
        rw [show list_max (poly.map Prod.fst) - list_min (poly.map Prod.fst) - 0 * 2 =
          list_max (poly.map Prod.fst) - list_min (poly.map Prod.fst) from by ring]
        exact div_self hwpos.ne'
      have e2 : (list_max (poly.map Prod.snd) - list_min (poly.map Prod.snd) - 0 * 2) /
          (list_max (poly.map Prod.snd) - list_min (poly.map Prod.snd)) = 1 := by
        rw [show list_max (poly.map Prod.snd) - list_min (poly.map Prod.snd) - 0 * 2 =
          list_max (poly.map Prod.snd) - list_min (poly.map Prod.snd) from by ring]
        exact div_self hhpos.ne'
      simp only [e1, e2, min_self]
      refine (List.map_congr_left ?_).trans (List.map_id poly)
      intro p _
      apply Prod.ext
      · dsimp only [id]
        ring
      · dsimp only [id]
        ring
  · -- degenerate: unchanged
    intro hdeg
    rw [shrink_polygon]
    dsimp only
    rw [if_pos hdeg]
  · -- strict containment
    intro hpx hwgt hhgt q hq
    have hcond : ¬(list_max (poly.map Prod.fst) - list_min (poly.map Prod.fst) ≤ px * 2 ∨
        list_max (poly.map Prod.snd) - list_min (poly.map Prod.snd) ≤ px * 2) := by
      push_neg
      exact ⟨hwgt, hhgt⟩
    rw [shrink_polygon] at hq
    dsimp only at hq
    rw [if_neg hcond] at hq
    obtain ⟨p, hp, rfl⟩ := List.mem_map.mp hq
    set mnx := list_min (poly.map Prod.fst) with hmnx
    set mxx := list_max (poly.map Prod.fst) with hmxx
    set mny := list_min (poly.map Prod.snd) with hmny
    set mxy := list_max (poly.map Prod.snd) with hmxy
    set cx := (poly.map Prod.fst).sum / (poly.length : ℚ) with hcx
    set cy := (poly.map Prod.snd).sum / (poly.length : ℚ) with hcy
    set s := min ((mxx - mnx - px * 2) / (mxx - mnx)) ((mxy - mny - px * 2) / (mxy - mny))
      with hs
    have hp1min : mnx ≤ p.1 := list_min_le _ _ (List.mem_map_of_mem Prod.fst hp)
    have hp1max : p.1 ≤ mxx := le_list_max _ _ (List.mem_map_of_mem Prod.fst hp)
    have hp2min : mny ≤ p.2 := list_min_le _ _ (List.mem_map_of_mem Prod.snd hp)
    have hp2max : p.2 ≤ mxy := le_list_max _ _ (List.mem_map_of_mem Prod.snd hp)
    have hmapne : poly.map Prod.fst ≠ [] := by
      cases poly with
      | nil => exact absurd rfl hne
      | cons a l => simp
    have hmapne2 : poly.map Prod.snd ≠ [] := by
      cases poly with
      | nil => exact absurd rfl hne
      | cons a l => simp
    have hwpos : (0 : ℚ) < mxx - mnx := by linarith
    have hhpos : (0 : ℚ) < mxy - mny := by linarith
    have hs0 : 0 < s := by
      rw [hs]
      apply lt_min
      · exact div_pos (by linarith) hwpos
      · exact div_pos (by linarith) hhpos
    have hs1 : s < 1 := by
      rw [hs]
      have h1 : (mxx - mnx - px * 2) / (mxx - mnx) < 1 := by
        rw [div_lt_one hwpos]
        linarith
      exact lt_of_le_of_lt (min_le_left _ _) h1
    have hcxb : mnx < cx ∧ cx < mxx := by
      have := mean_bounds (poly.map Prod.fst) hmapne (by linarith)
      rw [List.length_map] at this
      exact this
    have hcyb : mny < cy ∧ cy < mxy := by
      have := mean_bounds (poly.map Prod.snd) hmapne2 (by linarith)
      rw [List.length_map] at this
      exact this
    refine ⟨?_, ?_, ?_, ?_, ?_⟩
    · -- convex hull membership
      have hc := centroid_mem_convexHull poly hne
      have hpmem : p ∈ convexHull ℚ {p : Pt | p ∈ poly} :=
        subset_convexHull ℚ _ hp
      have hcomb := (convex_convexHull ℚ {p : Pt | p ∈ poly}) hc hpmem
        (by linarith : (0 : ℚ) ≤ 1 - s) hs0.le (by ring)
      have heq : (1 - s) • (((poly.map Prod.fst).sum / (poly.length : ℚ),
          (poly.map Prod.snd).sum / (poly.length : ℚ)) : Pt) + s • p =
          (cx + (p.1 - cx) * s, cy + (p.2 - cy) * s) := by
        apply Prod.ext
        · simp only [Prod.fst_add, Prod.smul_fst, smul_eq_mul, ← hcx]
          ring
        · simp only [Prod.snd_add, Prod.smul_snd, smul_eq_mul, ← hcy]
          ring
      rw [heq] at hcomb
      exact hcomb
    · have e : cx + (p.1 - cx) * s - mnx = (1 - s) * (cx - mnx) + s * (p.1 - mnx) := by
        ring
      have t1 : 0 < (1 - s) * (cx - mnx) := mul_pos (by linarith) (by linarith [hcxb.1])
      have t2 : 0 ≤ s * (p.1 - mnx) := mul_nonneg hs0.le (by linarith)
      show mnx < cx + (p.1 - cx) * s
      linarith
    · have e : mxx - (cx + (p.1 - cx) * s) = (1 - s) * (mxx - cx) + s * (mxx - p.1) := by
        ring
      have t1 : 0 < (1 - s) * (mxx - cx) := mul_pos (by linarith) (by linarith [hcxb.2])
      have t2 : 0 ≤ s * (mxx - p.1) := mul_nonneg hs0.le (by linarith)
      show cx + (p.1 - cx) * s < mxx
      linarith
    · have e : cy + (p.2 - cy) * s - mny = (1 - s) * (cy - mny) + s * (p.2 - mny) := by
        ring
      have t1 : 0 < (1 - s) * (cy - mny) := mul_pos (by linarith) (by linarith [hcyb.1])
      have t2 : 0 ≤ s * (p.2 - mny) := mul_nonneg hs0.le (by linarith)
      show mny < cy + (p.2 - cy) * s
      linarith
    · have e : mxy - (cy + (p.2 - cy) * s) = (1 - s) * (mxy - cy) + s * (mxy - p.2) := by
        ring
      have t1 : 0 < (1 - s) * (mxy - cy) := mul_pos (by linarith) (by linarith [hcyb.2])
      have t2 : 0 ≤ s * (mxy - p.2) := mul_nonneg hs0.le (by linarith)
      show cy + (p.2 - cy) * s < mxy
      linarith

theorem C9_gutter_shrink_witness :
    (([((0 : ℚ), (0 : ℚ)), (10, 0), (10, 10), (0, 10)] : List Pt) ≠ []) ∧
    (shrink_polygon [((0 : ℚ), (0 : ℚ)), (10, 0), (10, 10), (0, 10)] 0 =
        [((0 : ℚ), (0 : ℚ)), (10, 0), (10, 10), (0, 10)] ∧
     ((list_max (([((0 : ℚ), (0 : ℚ)), (10, 0), (10, 10), (0, 10)] : List Pt).map Prod.fst) -
         list_min (([((0 : ℚ), (0 : ℚ)), (10, 0), (10, 10), (0, 10)] : List Pt).map Prod.fst) ≤
          1 * 2 ∨
       list_max (([((0 : ℚ), (0 : ℚ)), (10, 0), (10, 10), (0, 10)] : List Pt).map Prod.snd) -
         list_min (([((0 : ℚ), (0 : ℚ)), (10, 0), (10, 10), (0, 10)] : List Pt).map Prod.snd) ≤
          1 * 2) →
      shrink_polygon [((0 : ℚ), (0 : ℚ)), (10, 0), (10, 10), (0, 10)] 1 =
        [((0 : ℚ), (0 : ℚ)), (10, 0), (10, 10), (0, 10)]) ∧
     ((0 : ℚ) < 1 →
      1 * 2 < list_max (([((0 : ℚ), (0 : ℚ)), (10, 0), (10, 10), (0, 10)] : List Pt).map Prod.fst) -
        list_min (([((0 : ℚ), (0 : ℚ)), (10, 0), (10, 10), (0, 10)] : List Pt).map Prod.fst) →
      1 * 2 < list_max (([((0 : ℚ), (0 : ℚ)), (10, 0), (10, 10), (0, 10)] : List Pt).map Prod.snd) -
        list_min (([((0 : ℚ), (0 : ℚ)), (10, 0), (10, 10), (0, 10)] : List Pt).map Prod.snd) →
      ∀ q ∈ shrink_polygon [((0 : ℚ), (0 : ℚ)), (10, 0), (10, 10), (0, 10)] 1,
        q ∈ convexHull ℚ
          {p : Pt | p ∈ ([((0 : ℚ), (0 : ℚ)), (10, 0), (10, 10), (0, 10)] : List Pt)} ∧
        list_min (([((0 : ℚ), (0 : ℚ)), (10, 0), (10, 10), (0, 10)] : List Pt).map Prod.fst) <
            q.1 ∧
          q.1 < list_max (([((0 : ℚ), (0 : ℚ)), (10, 0), (10, 10), (0, 10)] : List Pt).map
            Prod.fst) ∧
        list_min (([((0 : ℚ), (0 : ℚ)), (10, 0), (10, 10), (0, 10)] : List Pt).map Prod.snd) <
            q.2 ∧
          q.2 < list_max (([((0 : ℚ), (0 : ℚ)), (10, 0), (10, 10), (0, 10)] : List Pt).map
            Prod.snd))) :=
  ⟨by decide, C9_gutter_shrink [((0 : ℚ), (0 : ℚ)), (10, 0), (10, 10), (0, 10)] 1 (by decide)⟩

end MangaSpec
